import Mathlib

/-!
# Verification of the `abc` artificial-bee-colony engine

A shallow embedding of the core of the `abc` crate (files `task.rs`,
`candidate.rs`, `scaling.rs`, `hive.rs`) together with proofs about the
frozen specification claims.

Modelling conventions:
* `f64` fitness values are modelled as `ℚ`.  The claims under scrutiny are
  order- and arithmetic-structural (comparisons, cumulative sums, ranking);
  none depends on rounding, and the spec explicitly restricts ranking claims
  to non-NaN inputs, which `ℚ` captures by being totally ordered.
* `usize` quantities are modelled as `ℕ`.  The `retries` field of
  `WorkingCandidate` is an `i32` in the source (`retries as i32`), so it is
  modelled as `ℤ` together with an explicit 32-bit two's-complement wrap.
* Rust panics (`panic!`, `unreachable!`, out-of-range indexing, and
  `gen_range(0, 0)`) are modelled as `Option.none`; a function that cannot
  panic in the modelled fragment returns its value directly.
* Randomness is passed explicitly: `thread_rng().next_f64()` becomes a
  parameter `r : ℚ` (with `0 ≤ r < 1` where a claim needs it), and the
  fallback `gen_range(0, len)` becomes `u % len` for a parameter `u : ℕ`.
* Locks vanish in the sequential model: one `execute` call is one atomic
  task execution, and the `sender` stream of the hive is `None` (the
  non-streaming configuration every non-streaming claim is about).
-/

namespace Abc

/-! ## `task.rs` -/

/-- `Task` from `task.rs`: `Worker(usize) | Observer(usize)`.  (The whole
development lives in the `Abc` namespace because `Task` is taken by core.) -/
inductive Task : Type where
  | Worker : ℕ → Task
  | Observer : ℕ → Task
  deriving DecidableEq, Repr

/-- `TaskGenerator` from `task.rs`. -/
structure TaskGenerator : Type where
  workers : ℕ
  observers : ℕ
  next : Task
  max_rounds : Option ℕ
  stopped : Bool
  round : ℕ
  deriving DecidableEq, Repr

/-- `TaskGenerator::new`.  The source panics when `workers == 0`
(`panic!("Expect at least one worker.")`), modelled as `none`. -/
def TaskGenerator.new (workers observers : ℕ) : Option TaskGenerator :=
  if workers = 0 then none
  else some
    { workers := workers
      observers := observers
      round := 0
      max_rounds := none
      next := Task.Worker 0
      stopped := false }

/-- `TaskGenerator::max_rounds` (builder method).  Renamed because the Lean
structure field of the same name already occupies the name. -/
def TaskGenerator.withMaxRounds (tg : TaskGenerator) (mr : ℕ) : TaskGenerator :=
  { tg with max_rounds := some mr }

/-- `TaskGenerator::stop`. -/
def TaskGenerator.stop (tg : TaskGenerator) : TaskGenerator :=
  { tg with stopped := true }

/-- `<TaskGenerator as Iterator>::next`, returning the yielded item and the
successor state.  The guards `n == self.workers - 1` / `n == self.observers - 1`
use `ℕ` subtraction; for every state reachable from `new` (so `workers ≥ 1`,
and `Observer` states only when `observers ≥ 1`) this agrees with the `usize`
arithmetic of the source. -/
def TaskGenerator.nextIter (tg : TaskGenerator) : Option Task × TaskGenerator :=
  if !tg.stopped then
    let current := tg.next
    let tg' :=
      match tg.next with
      | Task.Worker n =>
        if n = tg.workers - 1 then
          if tg.observers > 0 then { tg with next := Task.Observer 0 }
          else { tg with next := Task.Worker 0 }
        else { tg with next := Task.Worker (n + 1) }
      | Task.Observer n =>
        if n = tg.observers - 1 then
          let round := tg.round + 1
          let stopped :=
            match tg.max_rounds with
            | some m => decide (m ≤ round)
            | none => false
          { tg with round := round, stopped := stopped, next := Task.Worker 0 }
        else { tg with next := Task.Observer (n + 1) }
    (some current, tg')
  else (none, tg)

/-- The generator state after `k` calls to `next`. -/
def TaskGenerator.afterCalls (tg : TaskGenerator) : ℕ → TaskGenerator
  | 0 => tg
  | k + 1 => (tg.afterCalls k).nextIter.2

/-- The item yielded by the `(k+1)`-st call to `next` (0-indexed). -/
def TaskGenerator.output (tg : TaskGenerator) (k : ℕ) : Option Task :=
  (tg.afterCalls k).nextIter.1

/-! ## `candidate.rs` -/

/-- `Candidate` from `candidate.rs`: a solution plus its cached fitness. -/
structure Candidate (S : Type) : Type where
  solution : S
  fitness : ℚ
  deriving DecidableEq, Repr

/-- `Candidate::new`. -/
def Candidate.new {S : Type} (solution : S) (fitness : ℚ) : Candidate S :=
  { solution := solution, fitness := fitness }

/-- 32-bit two's-complement truncation: the value of `x as i32`. -/
def wrap32 (x : ℤ) : ℤ :=
  (x + 2 ^ 31) % 2 ^ 32 - 2 ^ 31

/-- `WorkingCandidate` from `candidate.rs`.  The `retries` field is an `i32`
in the source, initialised by the cast `retries as i32` from a `usize`. -/
structure WorkingCandidate (S : Type) : Type where
  candidate : Candidate S
  retries : ℤ
  deriving DecidableEq, Repr

/-- `WorkingCandidate::new` with the `retries as i32` cast made explicit. -/
def WorkingCandidate.new {S : Type} (candidate : Candidate S) (retries : ℕ) :
    WorkingCandidate S :=
  { candidate := candidate, retries := wrap32 (retries : ℤ) }

/-- `WorkingCandidate::expired`: `self.retries <= 0`. -/
def WorkingCandidate.expired {S : Type} (w : WorkingCandidate S) : Bool :=
  decide (w.retries ≤ 0)

/-- `WorkingCandidate::deplete`: `self.retries -= 1` on an `i32`
(wrapping two's-complement decrement). -/
def WorkingCandidate.deplete {S : Type} (w : WorkingCandidate S) : WorkingCandidate S :=
  { w with retries := wrap32 (w.retries - 1) }

/-! ## `scaling.rs` -/

/-- `proportionate()` from `scaling.rs`. -/
def proportionate : List ℚ → List ℚ :=
  fun fitnesses => fitnesses

/-- `power(k)` from `scaling.rs`, for a natural exponent (on which every
claim about it is stated; `powf` at a natural exponent is iterated
multiplication). -/
def power (k : ℕ) : List ℚ → List ℚ :=
  fun fitnesses => fitnesses.map (fun f => f ^ k)

/-- `power_rank(k)` from `scaling.rs`: enumerate the fitnesses, sort the
pairs by fitness ascending with a stable sort (Rust `slice::sort_by` is
stable; `List.insertionSort` is the stable sort used here), then scatter
`(rank)^k` back to the original positions through a zero-filled vector. -/
def power_rank (k : ℕ) : List ℚ → List ℚ :=
  fun fitnesses =>
    let with_indices := fitnesses.enum
    let sorted_indices := List.insertionSort (fun a b => a.2 ≤ b.2) with_indices
    let ranks := List.replicate with_indices.length (0 : ℚ)
    sorted_indices.enum.foldl
      (fun ranks pe => ranks.set pe.2.1 (((pe.1 + 1 : ℕ) : ℚ) ^ k)) ranks

/-- `rank()` from `scaling.rs`: implemented as `power_rank(1)`. -/
def rank : List ℚ → List ℚ :=
  power_rank 1

/-! ## `context.rs` -/

/-- The `Context` trait: the collaborator supplying domain operations.
`make` draws on an RNG in practice; in this sequential model a context
value fixes its output (all theorems quantify over every context). -/
structure Context (S : Type) : Type where
  make : Unit → S
  evaluate_fitness : S → ℚ
  explore : List (Candidate S) → ℕ → S

/-! ## `hive.rs` -/

/-- `HiveBuilder` from `hive.rs`. -/
structure HiveBuilder (S : Type) : Type where
  workers : ℕ
  observers : ℕ
  retries : ℕ
  context : Context S
  threads : ℕ
  scale : List ℚ → List ℚ

/-- `HiveBuilder::new`.  Panics (`none`) when `workers == 0`; otherwise the
defaults are `observers = workers`, `retries = workers`,
`threads = num_cpus::get()` (passed in as `ncpus`), `scale = proportionate`. -/
def HiveBuilder.new {S : Type} (context : Context S) (workers : ℕ) (ncpus : ℕ) :
    Option (HiveBuilder S) :=
  if workers = 0 then none
  else some
    { workers := workers
      observers := workers
      retries := workers
      context := context
      threads := ncpus
      scale := proportionate }

/-- `HiveBuilder::new_candidate`: `make` then `evaluate_fitness`. -/
def HiveBuilder.new_candidate {S : Type} (hb : HiveBuilder S) : Candidate S :=
  let solution := hb.context.make ()
  let fitness := hb.context.evaluate_fitness solution
  Candidate.new solution fitness

/-- The mutable state owned by a (non-streaming) `Hive`: the population
slots, the best cell, and the scouting set.  The `tasks` cell lives in the
run model and `sender` is `None`. -/
structure HiveState (S : Type) : Type where
  working : List (WorkingCandidate S)
  best : Candidate S
  scouting : Finset ℕ
  deriving DecidableEq

namespace Hive

/-- `Hive::consider_improvement` acting on the `best` cell, with
`sender = None` (non-streaming hive): replace iff strictly fitter. -/
def consider_improvement {S : Type} (best candidate : Candidate S) : Candidate S :=
  if best.fitness < candidate.fitness then candidate else best

/-- `Hive::current_working`: clone each slot's candidate in index order. -/
def current_working {S : Type} (st : HiveState S) : List (Candidate S) :=
  st.working.map (fun w => w.candidate)

/-- `Hive::work_on`.  `none` models the panic on an out-of-range index
(never reached from `execute`).  The expired branch mirrors the source
sequencing: insert `n` into the scouting set, regenerate, install the fresh
candidate, propagate to best, then erase `n` from the scouting set. -/
def work_on {S : Type} (hb : HiveBuilder S) (st : HiveState S)
    (current_working : List (Candidate S)) (n : ℕ) : Option (HiveState S) :=
  let variant_solution := hb.context.explore current_working n
  let variant_fitness := hb.context.evaluate_fitness variant_solution
  let variant := Candidate.new variant_solution variant_fitness
  match st.working.get? n with
  | none => none
  | some write_guard =>
    if write_guard.candidate.fitness < variant.fitness then
      let fresh := WorkingCandidate.new variant hb.retries
      some { st with
              working := st.working.set n fresh
              best := consider_improvement st.best fresh.candidate }
    else
      let depleted := write_guard.deplete
      if depleted.expired then
        let candidate := hb.new_candidate
        let fresh := WorkingCandidate.new candidate hb.retries
        some { st with
                working := st.working.set n fresh
                best := consider_improvement st.best fresh.candidate
                scouting := (insert n st.scouting).erase n }
      else
        some { st with working := st.working.set n depleted }

/-- The running-totals `scan` of `Hive::choose`: pair each retained index
with the cumulative sum of the scaled fitnesses so far. -/
def scanTotals (acc : ℚ) : List (ℕ × ℚ) → List (ℕ × ℚ)
  | [] => []
  | p :: rest => (p.1, acc + p.2) :: scanTotals (acc + p.2) rest

/-- `Hive::choose`.  `r` is the `thread_rng().next_f64()` draw and `u`
feeds the all-scouting fallback `gen_range(0, fitnesses.len())` (modelled
as `u % len`; `gen_range(0, 0)` panics, hence `none` on an empty
population).  The `unreachable!()` arm is `none`. -/
def choose {S : Type} (hb : HiveBuilder S) (scouting : Finset ℕ)
    (current_working : List (Candidate S)) (r : ℚ) (u : ℕ) : Option ℕ :=
  let fitnesses := hb.scale (current_working.map (fun candidate => candidate.fitness))
  let running_totals :=
    scanTotals 0 (fitnesses.enum.filter (fun p => !(decide (p.1 ∈ scouting))))
  match running_totals.getLast? with
  | some (_, total_fitness) =>
    let choice_point := r * total_fitness
    match running_totals.find? (fun p => decide (choice_point < p.2)) with
    | some (i, _) => some i
    | none => none
  | none =>
    if fitnesses.length = 0 then none else some (u % fitnesses.length)

/-- `Hive::execute`: snapshot the population, guard a `Worker` task against
the scouting set, route an `Observer` task through `choose`, then `work_on`. -/
def execute {S : Type} (hb : HiveBuilder S) (st : HiveState S) (task : Task)
    (r : ℚ) (u : ℕ) : Option (HiveState S) :=
  let cw := current_working st
  match task with
  | Task.Worker n =>
    if n ∈ st.scouting then some st
    else work_on hb st cw n
  | Task.Observer _ =>
    match choose hb st.scouting cw r u with
    | none => none
    | some i => work_on hb st cw i

/-- A sequential run: execute a list of pulled tasks (each with its random
draws) in order.  Any complete run of the hive's thread pool executes some
such list. -/
def runTrace {S : Type} (hb : HiveBuilder S) (st : HiveState S) :
    List (Task × ℚ × ℕ) → Option (HiveState S)
  | [] => some st
  | e :: rest =>
    match execute hb st e.1 e.2.1 e.2.2 with
    | none => none
    | some st' => runTrace hb st' rest

end Hive

/-! ## Spec-side definitions

These follow the wording of the specification (not the code) and are what
the claim theorems compare the embedded code against. -/

/-- The total scaled weight of the non-scouting indices (the spec's
"total" of the roulette draw `[0, total)`). -/
def eligibleSum (scouting : Finset ℕ) (ws : List ℚ) : ℚ :=
  ((ws.enum.filter (fun p => !(decide (p.1 ∈ scouting)))).map Prod.snd).sum

/-- The spec's "running cumulative sum" at index `i`: the sum of the scaled
weights of the non-scouting indices `≤ i`. -/
def specCumSum (scouting : Finset ℕ) (ws : List ℚ) (i : ℕ) : ℚ :=
  ((ws.enum.filter
      (fun p => !(decide (p.1 ∈ scouting)) && decide (p.1 ≤ i))).map Prod.snd).sum

/-- The spec's 1-based ascending rank of position `i`: one more than the
number of positions that are strictly less fit, or equally fit and earlier
(ties broken stably by original position). -/
def specRank (fitnesses : List ℚ) (i : ℕ) : ℕ :=
  1 + ((List.range fitnesses.length).filter
        (fun j => decide (fitnesses.getD j 0 < fitnesses.getD i 0) ||
          (decide (fitnesses.getD j 0 = fitnesses.getD i 0) && decide (j < i)))).length

/-- Strict "stable sort" order on enumerated fitness pairs: by fitness,
ties by original index. -/
def lexLT (a b : ℕ × ℚ) : Prop :=
  a.2 < b.2 ∨ (a.2 = b.2 ∧ a.1 < b.1)

instance : DecidableRel lexLT := fun a b => by
  unfold lexLT
  infer_instance

instance : IsTotal (ℕ × ℚ) (fun a b : ℕ × ℚ => a.2 ≤ b.2) :=
  ⟨fun a b => le_total a.2 b.2⟩

instance : IsTrans (ℕ × ℚ) (fun a b : ℕ × ℚ => a.2 ≤ b.2) :=
  ⟨fun _ _ _ h1 h2 => le_trans h1 h2⟩

/-! ## Concrete instances used by witnesses -/

/-- A trivial collaborator over the unit solution type. -/
def ctxU : Context Unit :=
  { make := fun _ => ()
    evaluate_fitness := fun _ => 0
    explore := fun _ _ => () }

/-- A concrete builder (`workers = 1`, defaults otherwise). -/
def hbU : HiveBuilder Unit :=
  { workers := 1
    observers := 1
    retries := 1
    context := ctxU
    threads := 1
    scale := proportionate }

/-- A concrete one-slot hive state with best fitness 1. -/
def stU : HiveState Unit :=
  { working := [WorkingCandidate.new (Candidate.new () 1) 1]
    best := Candidate.new () 1
    scouting := ∅ }

/-- `stU` after one non-improving worker pull (slot regenerated). -/
def stU' : HiveState Unit :=
  { working := [WorkingCandidate.new (Candidate.new () 0) 1]
    best := Candidate.new () 1
    scouting := ∅ }

/-- A concrete one-slot hive state whose only slot is being scouted. -/
def stUscout : HiveState Unit :=
  { working := [WorkingCandidate.new (Candidate.new () 1) 1]
    best := Candidate.new () 1
    scouting := {0} }

/-- The generator state `TaskGenerator::new(1, 0)` produces. -/
def tg10 : TaskGenerator :=
  { workers := 1
    observers := 0
    round := 0
    max_rounds := none
    next := Task.Worker 0
    stopped := false }

/-- The generator state `TaskGenerator::new(3, 2)` produces. -/
def tg32 : TaskGenerator :=
  { workers := 3
    observers := 2
    round := 0
    max_rounds := none
    next := Task.Worker 0
    stopped := false }

/-! ## Task generator lemmas -/

/-- A stopped generator yields `none` and never changes state again. -/
lemma TaskGenerator.nextIter_of_stopped (tg : TaskGenerator) (h : tg.stopped = true) :
    tg.nextIter = (none, tg) := by
  simp [TaskGenerator.nextIter, h]

lemma TaskGenerator.afterCalls_of_stopped (tg : TaskGenerator) (h : tg.stopped = true) :
    ∀ j, tg.afterCalls j = tg := by
  intro j
  induction j with
  | zero => rfl
  | succ j ih =>
    simp [TaskGenerator.afterCalls, ih, TaskGenerator.nextIter_of_stopped tg h]

lemma TaskGenerator.afterCalls_add (tg : TaskGenerator) (k j : ℕ) :
    tg.afterCalls (k + j) = (tg.afterCalls k).afterCalls j := by
  induction j with
  | zero => rfl
  | succ j ih => simp [show k + (j + 1) = (k + j) + 1 by omega, TaskGenerator.afterCalls, ih]

/-- The invariant driving claim C2: with zero observers the generator never
leaves the worker sub-cycle, so `round` and `stopped` are never touched. -/
lemma TaskGenerator.zero_observers_invariant (tg : TaskGenerator)
    (h : tg.observers = 0 ∧ tg.stopped = false ∧ tg.round = 0 ∧ ∃ m, tg.next = Task.Worker m) :
    tg.nextIter.2.observers = 0 ∧ tg.nextIter.2.stopped = false ∧
      tg.nextIter.2.round = 0 ∧ ∃ m, tg.nextIter.2.next = Task.Worker m := by
  obtain ⟨ho, hs, hr, m, hm⟩ := h
  by_cases hw : m = tg.workers - 1 <;>
    simp [TaskGenerator.nextIter, hs, hm, hw, ho, hr]

/-- Claim C2: a `TaskGenerator` with `workers ≥ 1` (any generator `new`
accepts) and `observers = 0`, bounded by any `max_rounds` value, keeps
`round = 0` and `stopped = false` forever and never returns `None`:
a bounded run with zero observers never exhausts. -/
theorem abc_c2 (w mr : ℕ) (tg0 : TaskGenerator)
    (h : TaskGenerator.new w 0 = some tg0) (k : ℕ) :
    ((tg0.withMaxRounds mr).afterCalls k).round = 0 ∧
    ((tg0.withMaxRounds mr).afterCalls k).stopped = false ∧
    ((tg0.withMaxRounds mr).output k).isSome = true := by
  unfold TaskGenerator.new at h
  by_cases hw : w = 0
  · simp [hw] at h
  · simp only [hw, if_false, Option.some.injEq] at h
    have hinv : ∀ j, (((tg0.withMaxRounds mr).afterCalls j).observers = 0 ∧
        ((tg0.withMaxRounds mr).afterCalls j).stopped = false ∧
        ((tg0.withMaxRounds mr).afterCalls j).round = 0 ∧
        ∃ m, ((tg0.withMaxRounds mr).afterCalls j).next = Task.Worker m) := by
      intro j
      induction j with
      | zero =>
        refine ⟨?_, ?_, ?_, 0, ?_⟩ <;> simp [← h, TaskGenerator.withMaxRounds,
          TaskGenerator.afterCalls]
      | succ j ih =>
        exact TaskGenerator.zero_observers_invariant _ ih
    obtain ⟨ho, hs, hr, m, hm⟩ := hinv k
    refine ⟨hr, hs, ?_⟩
    simp [TaskGenerator.output, TaskGenerator.nextIter, hs]

/-- Witness for C2 at `workers = 1`, `max_rounds = 5`, after 3 pulls. -/
theorem abc_c2_witness :
    TaskGenerator.new 1 0 = some tg10 ∧
    ((tg10.withMaxRounds 5).afterCalls 3).round = 0 ∧
    ((tg10.withMaxRounds 5).afterCalls 3).stopped = false ∧
    ((tg10.withMaxRounds 5).output 3).isSome = true := by
  refine ⟨by decide, ?_⟩
  have := abc_c2 1 5 tg10 (by decide) 3
  exact ⟨this.1, this.2.1, this.2.2⟩

/-- Claim C3: the scheduler's exact sequence and state machine.  Part one:
`workers = 3, observers = 2, max_rounds = 2` yields exactly
`W0 W1 W2 O0 O1 W0 W1 W2 O0 O1` (10 items) and then `None` forever.
Part two: the general transition relation of `next` on a running
(non-stopped) generator, exactly as the claim states it. -/
theorem abc_c3 :
    (∀ tg0 : TaskGenerator, TaskGenerator.new 3 2 = some tg0 →
      (List.range 10).map (tg0.withMaxRounds 2).output =
        [some (Task.Worker 0), some (Task.Worker 1), some (Task.Worker 2),
         some (Task.Observer 0), some (Task.Observer 1),
         some (Task.Worker 0), some (Task.Worker 1), some (Task.Worker 2),
         some (Task.Observer 0), some (Task.Observer 1)] ∧
      ∀ j, (tg0.withMaxRounds 2).output (10 + j) = none) ∧
    (∀ (tg : TaskGenerator) (n : ℕ), tg.stopped = false →
      tg.next = Task.Worker n → n < tg.workers - 1 →
      tg.nextIter = (some (Task.Worker n), { tg with next := Task.Worker (n + 1) })) ∧
    (∀ tg : TaskGenerator, tg.stopped = false →
      tg.next = Task.Worker (tg.workers - 1) → 0 < tg.observers →
      tg.nextIter = (some (Task.Worker (tg.workers - 1)),
        { tg with next := Task.Observer 0 })) ∧
    (∀ tg : TaskGenerator, tg.stopped = false →
      tg.next = Task.Worker (tg.workers - 1) → tg.observers = 0 →
      tg.nextIter = (some (Task.Worker (tg.workers - 1)),
        { tg with next := Task.Worker 0 })) ∧
    (∀ (tg : TaskGenerator) (n : ℕ), tg.stopped = false →
      tg.next = Task.Observer n → n < tg.observers - 1 →
      tg.nextIter = (some (Task.Observer n), { tg with next := Task.Observer (n + 1) })) ∧
    (∀ tg : TaskGenerator, tg.stopped = false →
      tg.next = Task.Observer (tg.observers - 1) →
      tg.nextIter.1 = some (Task.Observer (tg.observers - 1)) ∧
      tg.nextIter.2.round = tg.round + 1 ∧
      tg.nextIter.2.next = Task.Worker 0 ∧
      (tg.nextIter.2.stopped = true ↔ ∃ m, tg.max_rounds = some m ∧ m ≤ tg.round + 1)) := by
  refine ⟨?_, ?_, ?_, ?_, ?_, ?_⟩
  · intro tg0 h
    have h0 : tg0 = tg32 := by
      simpa [TaskGenerator.new, tg32] using h.symm
    subst h0
    constructor
    · decide
    · intro j
      have hstop : ((tg32.withMaxRounds 2).afterCalls 10).stopped = true := by decide
      simp only [TaskGenerator.output, TaskGenerator.afterCalls_add]
      rw [TaskGenerator.afterCalls_of_stopped _ hstop j,
        TaskGenerator.nextIter_of_stopped _ hstop]
  · intro tg n hs hn hw
    have : ¬ n = tg.workers - 1 := by omega
    simp [TaskGenerator.nextIter, hs, hn, this]
  · intro tg hs hn ho
    simp [TaskGenerator.nextIter, hs, hn, ho]
  · intro tg hs hn ho
    simp [TaskGenerator.nextIter, hs, hn, ho]
  · intro tg n hs hn hob
    have : ¬ n = tg.observers - 1 := by omega
    simp [TaskGenerator.nextIter, hs, hn, this]
  · intro tg hs hn
    cases hmr : tg.max_rounds <;>
      simp [TaskGenerator.nextIter, hs, hn, hmr]

/-- Witness for C3: instantiate part one at the canonical generator and a
general transition at a concrete running state. -/
theorem abc_c3_witness :
    TaskGenerator.new 3 2 = some tg32 ∧
    ((tg32.withMaxRounds 2).output (10 + 7)) = none := by
  refine ⟨by decide, ?_⟩
  exact ((abc_c3.1 tg32 (by decide)).2 7)

/-- Claim C9: `workers == 0` is a fatal construction error (a panic,
modelled `none`, not a recoverable `Err(abc::Error)` value — the constructor
return types carry no error at all), for both `TaskGenerator::new` and
`HiveBuilder::new`; with `workers ≥ 1` neither construction panics. -/
theorem abc_c9 {S : Type} (context : Context S) (observers ncpus : ℕ) :
    TaskGenerator.new 0 observers = none ∧
    HiveBuilder.new context 0 ncpus = none ∧
    ∀ workers, 1 ≤ workers →
      (TaskGenerator.new workers observers).isSome = true ∧
      (HiveBuilder.new context workers ncpus).isSome = true := by
  refine ⟨by simp [TaskGenerator.new], by simp [HiveBuilder.new], ?_⟩
  intro workers hw
  have : ¬ workers = 0 := by omega
  constructor <;> simp [TaskGenerator.new, HiveBuilder.new, this]

/-- Witness for C9 at `workers = 3`. -/
theorem abc_c9_witness :
    (1 : ℕ) ≤ 3 ∧
    (TaskGenerator.new 3 2).isSome = true ∧
    (HiveBuilder.new ctxU 3 4).isSome = true := by
  exact ⟨by decide, (abc_c9 ctxU 2 4).2.2 3 (by decide)⟩

/-! ## Hive step lemmas -/

/-- Claim C7: executing `Worker(n)` while `n` is in the scouting set is a
complete no-op: the call succeeds (`Ok(())`, here `some`) and returns the
state unchanged — population, best and scouting set untouched — and, being
independent of the collaborator `hb.context`, calls neither `explore` nor
`evaluate_fitness`. -/
theorem abc_c7 {S : Type} (hb : HiveBuilder S) (st : HiveState S) (n : ℕ)
    (r : ℚ) (u : ℕ) (h : n ∈ st.scouting) :
    Hive.execute hb st (Task.Worker n) r u = some st := by
  simp [Hive.execute, h]

/-- Witness for C7 on a concrete one-slot state whose slot is scouting. -/
theorem abc_c7_witness :
    0 ∈ stUscout.scouting ∧
    Hive.execute hbU stUscout (Task.Worker 0) 0 0 = some stUscout :=
  ⟨by decide, abc_c7 hbU stUscout 0 0 0 (by decide)⟩

lemma consider_improvement_le {S : Type} (best c : Candidate S) :
    best.fitness ≤ (Hive.consider_improvement best c).fitness := by
  unfold Hive.consider_improvement
  split_ifs with h
  · exact le_of_lt h
  · exact le_rfl

lemma work_on_best_mono {S : Type} {hb : HiveBuilder S} {st st' : HiveState S}
    {cw : List (Candidate S)} {n : ℕ}
    (h : Hive.work_on hb st cw n = some st') :
    st.best.fitness ≤ st'.best.fitness := by
  cases hget : st.working.get? n with
  | none =>
    simp only [Hive.work_on, hget] at h
    cases h
  | some wg =>
    simp only [Hive.work_on, hget] at h
    split_ifs at h with h1 h2 <;>
      simp only [Option.some.injEq] at h <;> subst h
    · exact consider_improvement_le _ _
    · exact consider_improvement_le _ _
    · exact le_rfl

lemma execute_best_mono {S : Type} {hb : HiveBuilder S} {st st' : HiveState S}
    {t : Task} {r : ℚ} {u : ℕ}
    (h : Hive.execute hb st t r u = some st') :
    st.best.fitness ≤ st'.best.fitness := by
  cases t with
  | Worker n =>
    by_cases hsc : n ∈ st.scouting
    · simp only [Hive.execute, if_pos hsc, Option.some.injEq] at h
      subst h
      exact le_rfl
    · simp only [Hive.execute, if_neg hsc] at h
      exact work_on_best_mono h
  | Observer m =>
    cases hch : Hive.choose hb st.scouting (Hive.current_working st) r u with
    | none =>
      simp only [Hive.execute, hch] at h
      cases h
    | some i =>
      simp only [Hive.execute, hch] at h
      exact work_on_best_mono h

lemma runTrace_best_mono {S : Type} {hb : HiveBuilder S} {es : List (Task × ℚ × ℕ)} :
    ∀ {st st' : HiveState S}, Hive.runTrace hb st es = some st' →
      st.best.fitness ≤ st'.best.fitness := by
  induction es with
  | nil =>
    intro st st' h
    simp only [Hive.runTrace, Option.some.injEq] at h
    subst h
    exact le_rfl
  | cons e rest ih =>
    intro st st' h
    simp only [Hive.runTrace] at h
    cases hex : Hive.execute hb st e.1 e.2.1 e.2.2 with
    | none => rw [hex] at h; cases h
    | some st1 =>
      rw [hex] at h
      exact le_trans (execute_best_mono hex) (ih h)

/-- Claim C4: the best candidate is monotone.  `consider_improvement` is a
strict compare-and-replace (it replaces exactly when the offered candidate
is strictly fitter, so best never decreases), and across any two
consecutive complete runs on the same hive (each run executes some list of
pulled tasks), the best fitness after the second run is `≥` the best
fitness after the first, which is `≥` the best fitness before it. -/
theorem abc_c4 {S : Type} :
    (∀ best candidate : Candidate S,
      (candidate.fitness ≤ best.fitness →
        Hive.consider_improvement best candidate = best) ∧
      (best.fitness < candidate.fitness →
        Hive.consider_improvement best candidate = candidate) ∧
      best.fitness ≤ (Hive.consider_improvement best candidate).fitness) ∧
    (∀ (hb : HiveBuilder S) (st st1 st2 : HiveState S)
        (es1 es2 : List (Task × ℚ × ℕ)),
      Hive.runTrace hb st es1 = some st1 →
      Hive.runTrace hb st1 es2 = some st2 →
      st.best.fitness ≤ st1.best.fitness ∧
      st1.best.fitness ≤ st2.best.fitness) := by
  constructor
  · intro best candidate
    refine ⟨?_, ?_, consider_improvement_le best candidate⟩
    · intro hle
      unfold Hive.consider_improvement
      rw [if_neg (not_lt.mpr hle)]
    · intro hlt
      unfold Hive.consider_improvement
      rw [if_pos hlt]
  · intro hb st st1 st2 es1 es2 h1 h2
    exact ⟨runTrace_best_mono h1, runTrace_best_mono h2⟩

/-- Witness for C4: one non-improving worker pull on `stU` followed by an
empty run. -/
theorem abc_c4_witness :
    Hive.runTrace hbU stU [(Task.Worker 0, 0, 0)] = some stU' ∧
    Hive.runTrace hbU stU' [] = some stU' ∧
    stU.best.fitness ≤ stU'.best.fitness ∧
    stU'.best.fitness ≤ stU'.best.fitness := by
  have h1 : Hive.runTrace hbU stU [(Task.Worker 0, 0, 0)] = some stU' := by decide
  have h2 : Hive.runTrace hbU stU' [] = some stU' := by decide
  have h := (abc_c4 (S := Unit)).2 hbU stU stU' stU' [(Task.Worker 0, 0, 0)] [] h1 h2
  exact ⟨h1, h2, h.1, h.2⟩

/-! ## WorkingCandidate retry lemmas -/

lemma wrap32_eq_self {x : ℤ} (h1 : -(2 ^ 31) ≤ x) (h2 : x < 2 ^ 31) :
    wrap32 x = x := by
  unfold wrap32
  have ha : (0 : ℤ) ≤ x + 2 ^ 31 := by linarith
  have hb : x + 2 ^ 31 < 2 ^ 32 := by
    have : (2 : ℤ) ^ 32 = 2 ^ 31 + 2 ^ 31 := by norm_num
    linarith
  rw [Int.emod_eq_of_lt ha hb]
  ring

lemma new_retries {S : Type} (c : Candidate S) {R : ℕ} (hR : (R : ℤ) < 2 ^ 31) :
    (WorkingCandidate.new c R).retries = (R : ℤ) := by
  unfold WorkingCandidate.new
  exact wrap32_eq_self (le_trans (by norm_num) (Int.natCast_nonneg R)) hR

lemma deplete_retries {S : Type} (w : WorkingCandidate S)
    (h1 : -(2 ^ 31) < w.retries) (h2 : w.retries ≤ 2 ^ 31) :
    w.deplete.retries = w.retries - 1 := by
  unfold WorkingCandidate.deplete
  exact wrap32_eq_self (by omega) (by omega)

lemma deplete_iterate_retries {S : Type} (c : Candidate S) {R : ℕ}
    (hR : (R : ℤ) < 2 ^ 31) :
    ∀ k, k ≤ R →
      ((WorkingCandidate.deplete)^[k] (WorkingCandidate.new c R)).retries
        = (R : ℤ) - (k : ℤ) := by
  intro k
  induction k with
  | zero =>
    intro _
    simpa using new_retries c hR
  | succ k ih =>
    intro hk
    have hkR : k ≤ R := by omega
    have hr := ih hkR
    rw [Function.iterate_succ_apply', deplete_retries _ (by omega) (by omega), hr]
    push_cast
    ring

lemma mem_of_get?_eq_some {α : Type} {l : List α} {n : ℕ} {a : α}
    (h : l.get? n = some a) : a ∈ l :=
  List.get?_mem h

lemma mem_set_cases {α : Type} {l : List α} {n : ℕ} {a w : α}
    (h : w ∈ l.set n a) : w ∈ l ∨ w = a :=
  List.mem_or_eq_of_mem_set h

lemma work_on_slotInv {S : Type} {hb : HiveBuilder S} {st st' : HiveState S}
    {cw : List (Candidate S)} {n : ℕ} (hR : (hb.retries : ℤ) < 2 ^ 31)
    (hinv : ∀ w ∈ st.working, 0 ≤ w.retries ∧ w.retries ≤ (hb.retries : ℤ))
    (h : Hive.work_on hb st cw n = some st') :
    ∀ w ∈ st'.working, 0 ≤ w.retries ∧ w.retries ≤ (hb.retries : ℤ) := by
  cases hget : st.working.get? n with
  | none =>
    simp only [Hive.work_on, hget] at h
    cases h
  | some wg =>
    simp only [Hive.work_on, hget] at h
    have hwg := hinv wg (mem_of_get?_eq_some hget)
    have hfresh : ∀ c : Candidate S,
        0 ≤ (WorkingCandidate.new c hb.retries).retries ∧
        (WorkingCandidate.new c hb.retries).retries ≤ (hb.retries : ℤ) := by
      intro c
      rw [new_retries c hR]
      exact ⟨Int.natCast_nonneg _, le_rfl⟩
    split_ifs at h with h1 h2 <;>
      simp only [Option.some.injEq] at h <;> subst h <;> intro w hw <;>
      simp only at hw
    · rcases mem_set_cases hw with hmem | rfl
      · exact hinv w hmem
      · exact hfresh _
    · rcases mem_set_cases hw with hmem | rfl
      · exact hinv w hmem
      · exact hfresh _
    · rcases mem_set_cases hw with hmem | rfl
      · exact hinv w hmem
      · have hdep : wg.deplete.retries = wg.retries - 1 :=
          deplete_retries wg (by omega) (by omega)
        have hpos : ¬ wg.deplete.retries ≤ 0 := by
          intro hle
          exact h2 (by simp [WorkingCandidate.expired, hle])
        constructor
        · omega
        · rw [hdep]; omega

lemma execute_slotInv {S : Type} {hb : HiveBuilder S} {st st' : HiveState S}
    {t : Task} {r : ℚ} {u : ℕ} (hR : (hb.retries : ℤ) < 2 ^ 31)
    (hinv : ∀ w ∈ st.working, 0 ≤ w.retries ∧ w.retries ≤ (hb.retries : ℤ))
    (h : Hive.execute hb st t r u = some st') :
    ∀ w ∈ st'.working, 0 ≤ w.retries ∧ w.retries ≤ (hb.retries : ℤ) := by
  cases t with
  | Worker n =>
    by_cases hsc : n ∈ st.scouting
    · simp only [Hive.execute, if_pos hsc, Option.some.injEq] at h
      subst h
      exact hinv
    · simp only [Hive.execute, if_neg hsc] at h
      exact work_on_slotInv hR hinv h
  | Observer m =>
    cases hch : Hive.choose hb st.scouting (Hive.current_working st) r u with
    | none =>
      simp only [Hive.execute, hch] at h
      cases h
    | some i =>
      simp only [Hive.execute, hch] at h
      exact work_on_slotInv hR hinv h

lemma runTrace_slotInv {S : Type} {hb : HiveBuilder S} {es : List (Task × ℚ × ℕ)}
    (hR : (hb.retries : ℤ) < 2 ^ 31) :
    ∀ {st st' : HiveState S},
      (∀ w ∈ st.working, 0 ≤ w.retries ∧ w.retries ≤ (hb.retries : ℤ)) →
      Hive.runTrace hb st es = some st' →
      ∀ w ∈ st'.working, 0 ≤ w.retries ∧ w.retries ≤ (hb.retries : ℤ) := by
  induction es with
  | nil =>
    intro st st' hinv h
    simp only [Hive.runTrace, Option.some.injEq] at h
    subst h
    exact hinv
  | cons e rest ih =>
    intro st st' hinv h
    simp only [Hive.runTrace] at h
    cases hex : Hive.execute hb st e.1 e.2.1 e.2.2 with
    | none => rw [hex] at h; cases h
    | some st1 =>
      rw [hex] at h
      exact ih (execute_slotInv hR hinv hex) h

/-- Claim C5, amended to retry limits below `2^31` (the source stores the
`usize` limit in an `i32` via `as`, which wraps at `2^31`): a slot built
with `retries = R` counts down exactly, is not expired until `deplete` has
run `R` times, and along any complete sequence of task executions every
slot keeps `0 ≤ retries ≤ R`, is expired exactly when `retries = 0`, and
is reset to `R` on every replacement (improvement or regeneration) while
each non-improving attempt decrements it — the latter two facts being what
the trace invariant preserves step by step. -/
theorem abc_c5 {S : Type} (hb : HiveBuilder S) (hR : (hb.retries : ℤ) < 2 ^ 31) :
    (∀ c : Candidate S, ∀ k, k ≤ hb.retries →
      ((WorkingCandidate.deplete)^[k] (WorkingCandidate.new c hb.retries)).retries
          = (hb.retries : ℤ) - (k : ℤ) ∧
      (((WorkingCandidate.deplete)^[k] (WorkingCandidate.new c hb.retries)).expired = true
          ↔ k = hb.retries)) ∧
    (∀ (st st' : HiveState S) (es : List (Task × ℚ × ℕ)),
      (∀ w ∈ st.working, 0 ≤ w.retries ∧ w.retries ≤ (hb.retries : ℤ)) →
      Hive.runTrace hb st es = some st' →
      ∀ w ∈ st'.working,
        (0 ≤ w.retries ∧ w.retries ≤ (hb.retries : ℤ)) ∧
        (w.expired = true ↔ w.retries = 0)) := by
  constructor
  · intro c k hk
    have hr := deplete_iterate_retries c hR k hk
    refine ⟨hr, ?_⟩
    rw [WorkingCandidate.expired, hr]
    simp only [decide_eq_true_eq]
    omega
  · intro st st' es hinv h
    intro w hw
    have hi := runTrace_slotInv hR hinv h w hw
    refine ⟨hi, ?_⟩
    rw [WorkingCandidate.expired]
    simp only [decide_eq_true_eq]
    omega

/-- Counterexample to C5 as stated (for *every* retry limit `R`): at
`R = 2^31` the `retries as i32` cast wraps to `-2^31`, so the freshly
constructed slot already violates `0 ≤ retries` and is expired before any
`deplete` call, although `R ≠ 0`. -/
theorem abc_c5_counterexample :
    (WorkingCandidate.new (Candidate.new () (0 : ℚ)) (2 ^ 31)).retries < 0 ∧
    (WorkingCandidate.new (Candidate.new () (0 : ℚ)) (2 ^ 31)).expired = true ∧
    (2 ^ 31 : ℕ) ≠ 0 := by
  refine ⟨?_, ?_, by decide⟩ <;> decide

/-- Witness for C5 at the concrete one-slot hive. -/
theorem abc_c5_witness :
    ((hbU.retries : ℤ) < 2 ^ 31) ∧
    (((WorkingCandidate.deplete)^[1] (WorkingCandidate.new (Candidate.new () (5 : ℚ))
        hbU.retries)).expired = true) ∧
    (∀ w ∈ stU'.working,
      (0 ≤ w.retries ∧ w.retries ≤ (hbU.retries : ℤ)) ∧
      (w.expired = true ↔ w.retries = 0)) := by
  have h := abc_c5 hbU (by decide)
  refine ⟨by decide, ?_, ?_⟩
  · exact (h.1 (Candidate.new () 5) 1 (by decide)).2.mpr (by decide)
  · exact h.2 stU stU' [(Task.Worker 0, 0, 0)] (by decide) (by decide)

/-! ## List lemmas for the roulette analysis -/

lemma pairwise_fst_lt_enumFrom {α : Type} :
    ∀ (l : List α) (s : ℕ), (l.enumFrom s).Pairwise (fun a b : ℕ × α => a.1 < b.1) := by
  intro l
  induction l with
  | nil => intro s; simp [List.enumFrom]
  | cons x rest ih =>
    intro s
    refine List.Pairwise.cons ?_ (ih (s + 1))
    intro y hy
    obtain ⟨i, xv⟩ := y
    have := (List.mem_enumFrom hy).1
    simpa using by omega

lemma pairwise_fst_lt_enum {α : Type} (l : List α) :
    l.enum.Pairwise (fun a b : ℕ × α => a.1 < b.1) :=
  pairwise_fst_lt_enumFrom l 0

lemma scanTotals_length : ∀ (l : List (ℕ × ℚ)) (a : ℚ),
    (Hive.scanTotals a l).length = l.length := by
  intro l
  induction l with
  | nil => intro a; rfl
  | cons p rest ih => intro a; simp [Hive.scanTotals, ih]

lemma scanTotals_map_fst : ∀ (l : List (ℕ × ℚ)) (a : ℚ),
    (Hive.scanTotals a l).map Prod.fst = l.map Prod.fst := by
  intro l
  induction l with
  | nil => intro a; rfl
  | cons p rest ih => intro a; simp [Hive.scanTotals, ih]

lemma scanTotals_getElem? : ∀ (l : List (ℕ × ℚ)) (a : ℚ) (k : ℕ) (hk : k < l.length),
    (Hive.scanTotals a l)[k]? =
      some ((l[k]).1, a + ((l.take (k + 1)).map Prod.snd).sum) := by
  intro l
  induction l with
  | nil => intro a k hk; simp at hk
  | cons p rest ih =>
    intro a k hk
    cases k with
    | zero => simp [Hive.scanTotals]
    | succ k =>
      have hk' : k < rest.length := by simpa using hk
      simp only [Hive.scanTotals, List.getElem?_cons_succ, List.getElem_cons_succ,
        List.take_succ_cons, List.map_cons, List.sum_cons, ih (a + p.2) k hk']
      congr 2
      ring

lemma find?_eq_some_first {α : Type} (p : α → Bool) :
    ∀ (l : List α) (a : α), List.find? p l = some a →
      ∃ k, ∃ hk : k < l.length, l[k] = a ∧ p a = true ∧
        ∀ b ∈ l.take k, p b = false := by
  intro l
  induction l with
  | nil => intro a h; cases h
  | cons x rest ih =>
    intro a h
    rw [List.find?_cons] at h
    cases hp : p x with
    | true =>
      rw [hp] at h
      simp only [Option.some.injEq] at h
      subst h
      exact ⟨0, by simp, by simp, hp, by simp⟩
    | false =>
      rw [hp] at h
      obtain ⟨k, hk, hget, hpa, hfirst⟩ := ih a h
      refine ⟨k + 1, by simpa using hk, by simpa using hget, hpa, ?_⟩
      intro b hb
      rw [List.take_succ_cons] at hb
      rcases List.mem_cons.mp hb with rfl | hb'
      · exact hp
      · exact hfirst b hb'

lemma mem_of_getLast?_eq_some {α : Type} {l : List α} {a : α}
    (h : l.getLast? = some a) : a ∈ l := by
  rw [List.getLast?_eq_getElem?] at h
  exact List.mem_iff_getElem?.mpr ⟨_, h⟩

lemma getElem_mem_take {α : Type} {l : List α} {k j : ℕ} (hjk : j < k)
    (hjl : j < l.length) : l[j] ∈ l.take k := by
  have hjt : j < (l.take k).length := by
    simp only [List.length_take]
    omega
  have : (l.take k)[j] = l[j] := List.getElem_take l
  rw [← this]
  exact List.getElem_mem hjt

lemma filter_le_fst_eq_take (E : List (ℕ × ℚ))
    (hpw : E.Pairwise (fun a b => a.1 < b.1)) (k : ℕ) (hk : k < E.length)
    (i : ℕ) (hi : (E[k]).1 = i) :
    E.filter (fun p => decide (p.1 ≤ i)) = E.take (k + 1) := by
  have hpg := List.pairwise_iff_getElem.mp hpw
  conv_lhs => rw [← List.take_append_drop (k + 1) E]
  rw [List.filter_append]
  have h1 : (E.take (k + 1)).filter (fun p => decide (p.1 ≤ i)) = E.take (k + 1) := by
    rw [List.filter_eq_self]
    intro b hb
    obtain ⟨j, hj, hbj⟩ := List.mem_iff_getElem.mp hb
    have hjk : j < k + 1 := by
      have := hj
      simp only [List.length_take] at this
      omega
    have hjl : j < E.length := by omega
    have hbe : b = E[j] := by
      rw [← hbj]
      exact List.getElem_take E
    rcases Nat.lt_or_ge j k with hlt | hge
    · have := hpg j k hjl hk hlt
      simp only [hbe, decide_eq_true_eq]
      omega
    · have hjeq : j = k := by omega
      subst hjeq
      simp [hbe, hi]
  have h2 : (E.drop (k + 1)).filter (fun p => decide (p.1 ≤ i)) = [] := by
    rw [List.filter_eq_nil_iff]
    intro b hb
    obtain ⟨j, hj, hbj⟩ := List.mem_iff_getElem.mp hb
    have hjl : (k + 1) + j < E.length := by
      have := hj
      simp only [List.length_drop] at this
      omega
    have hbe : b = E[(k + 1) + j] := by
      rw [← hbj]
      exact List.getElem_drop E
    have := hpg k ((k + 1) + j) hk hjl (by omega)
    simp only [hbe, decide_eq_true_eq]
    omega
  rw [h1, h2, List.append_nil]

lemma eligible_pairwise (scouting : Finset ℕ) (ws : List ℚ) :
    ((ws.enum.filter (fun p => !(decide (p.1 ∈ scouting)))).Pairwise
      (fun a b : ℕ × ℚ => a.1 < b.1)) :=
  List.Pairwise.sublist (List.filter_sublist _) (pairwise_fst_lt_enum ws)

lemma specCumSum_eq_take (scouting : Finset ℕ) (ws : List ℚ) (k : ℕ)
    (hk : k < (ws.enum.filter (fun p => !(decide (p.1 ∈ scouting)))).length)
    (i : ℕ)
    (hi : (((ws.enum.filter (fun p => !(decide (p.1 ∈ scouting))))[k]).1 = i)) :
    specCumSum scouting ws i =
      ((((ws.enum.filter (fun p => !(decide (p.1 ∈ scouting)))).take (k + 1))).map
          Prod.snd).sum := by
  unfold specCumSum
  have hflip : ws.enum.filter (fun p => !(decide (p.1 ∈ scouting)) && decide (p.1 ≤ i))
      = (ws.enum.filter (fun p => !(decide (p.1 ∈ scouting)))).filter
          (fun p => decide (p.1 ≤ i)) := by
    rw [List.filter_filter]
    exact List.filter_congr (fun x _ => by rw [Bool.and_comm])
  rw [hflip, filter_le_fst_eq_take _ (eligible_pairwise scouting ws) k hk i hi]

lemma scanTotals_getLast?_sum (E : List (ℕ × ℚ)) (hE : E ≠ []) :
    (Hive.scanTotals (0 : ℚ) E).getLast? =
      some ((E.getLast hE).1, (E.map Prod.snd).sum) := by
  have hlen : 0 < E.length := List.length_pos.mpr hE
  rw [List.getLast?_eq_getElem?, scanTotals_length,
    scanTotals_getElem? E 0 (E.length - 1) (by omega), List.getLast_eq_getElem]
  congr 2
  rw [show E.length - 1 + 1 = E.length by omega, List.take_length, zero_add]

lemma mem_eligible_of_not_scouting {scouting : Finset ℕ} {ws : List ℚ} {j : ℕ}
    (hjlen : j < ws.length) (hjsc : j ∉ scouting) :
    (j, ws[j]) ∈ ws.enum.filter (fun p => !(decide (p.1 ∈ scouting))) := by
  refine List.mem_filter.mpr ⟨?_, by simp [hjsc]⟩
  exact List.mk_mem_enum_iff_getElem?.mpr (List.getElem?_eq_getElem hjlen)

lemma fst_lt_length_of_mem_eligible {scouting : Finset ℕ} {ws : List ℚ}
    {p : ℕ × ℚ} (hp : p ∈ ws.enum.filter (fun q => !(decide (q.1 ∈ scouting)))) :
    p.1 < ws.length ∧ p.1 ∉ scouting ∧ p.2 = ws.getD p.1 0 := by
  obtain ⟨hmem, hdec⟩ := List.mem_filter.mp hp
  obtain ⟨i, x⟩ := p
  have hget := List.mk_mem_enum_iff_getElem?.mp hmem
  obtain ⟨hlt, hx⟩ := List.getElem?_eq_some.mp hget
  refine ⟨hlt, by simpa using hdec, ?_⟩
  simp only
  rw [List.getD_eq_getElem ws 0 hlt, hx]

/-! ## Scouting-related lemmas for `work_on`, `execute`, `runTrace` -/

lemma work_on_scouting_empty {S : Type} {hb : HiveBuilder S} {st st' : HiveState S}
    {cw : List (Candidate S)} {n : ℕ} (h0 : st.scouting = ∅)
    (h : Hive.work_on hb st cw n = some st') : st'.scouting = ∅ := by
  cases hget : st.working.get? n with
  | none =>
    simp only [Hive.work_on, hget] at h
    cases h
  | some wg =>
    simp only [Hive.work_on, hget] at h
    split_ifs at h with h1 h2 <;>
      simp only [Option.some.injEq] at h <;> subst h <;>
      simp only [h0]
    rw [Finset.erase_insert (Finset.not_mem_empty n)]

lemma execute_scouting_empty {S : Type} {hb : HiveBuilder S} {st st' : HiveState S}
    {t : Task} {r : ℚ} {u : ℕ} (h0 : st.scouting = ∅)
    (h : Hive.execute hb st t r u = some st') : st'.scouting = ∅ := by
  cases t with
  | Worker n =>
    by_cases hsc : n ∈ st.scouting
    · simp only [Hive.execute, if_pos hsc, Option.some.injEq] at h
      subst h
      exact h0
    · simp only [Hive.execute, if_neg hsc] at h
      exact work_on_scouting_empty h0 h
  | Observer m =>
    cases hch : Hive.choose hb st.scouting (Hive.current_working st) r u with
    | none =>
      simp only [Hive.execute, hch] at h
      cases h
    | some i =>
      simp only [Hive.execute, hch] at h
      exact work_on_scouting_empty h0 h

lemma runTrace_scouting_empty {S : Type} {hb : HiveBuilder S}
    {es : List (Task × ℚ × ℕ)} :
    ∀ {st st' : HiveState S}, st.scouting = ∅ →
      Hive.runTrace hb st es = some st' → st'.scouting = ∅ := by
  induction es with
  | nil =>
    intro st st' h0 h
    simp only [Hive.runTrace, Option.some.injEq] at h
    subst h
    exact h0
  | cons e rest ih =>
    intro st st' h0 h
    simp only [Hive.runTrace] at h
    cases hex : Hive.execute hb st e.1 e.2.1 e.2.2 with
    | none => rw [hex] at h; cases h
    | some st1 =>
      rw [hex] at h
      exact ih (execute_scouting_empty h0 hex) h

/-- Claim C1, amended: whenever at least one index of the scaled-weight
vector lies outside the scouting set, the index `choose` returns is never a
member of the scouting set (the claim as frozen fails only in the
documented all-scouting fallback, see the counterexample); and a hive whose
scouting set is empty has it empty again after any complete sequence of
task executions — each regeneration inserts and then removes its index. -/
theorem abc_c1 {S : Type} :
    (∀ (hb : HiveBuilder S) (scouting : Finset ℕ) (cw : List (Candidate S))
        (r : ℚ) (u i : ℕ) (ws : List ℚ),
      ws = hb.scale (cw.map (fun c => c.fitness)) →
      (∃ j, j < ws.length ∧ j ∉ scouting) →
      Hive.choose hb scouting cw r u = some i → i ∉ scouting) ∧
    (∀ (hb : HiveBuilder S) (st st' : HiveState S) (es : List (Task × ℚ × ℕ)),
      st.scouting = ∅ → Hive.runTrace hb st es = some st' → st'.scouting = ∅) := by
  constructor
  · intro hb scouting cw r u i ws hws hex h
    subst hws
    simp only [Hive.choose] at h
    obtain ⟨j, hjlen, hjsc⟩ := hex
    have hEne : (hb.scale (cw.map (fun c => c.fitness))).enum.filter
        (fun p => !(decide (p.1 ∈ scouting))) ≠ [] :=
      List.ne_nil_of_mem (mem_eligible_of_not_scouting hjlen hjsc)
    cases hlast : (Hive.scanTotals 0 ((hb.scale (cw.map (fun c => c.fitness))).enum.filter
        (fun p => !(decide (p.1 ∈ scouting))))).getLast? with
    | none =>
      exfalso
      apply hEne
      have := List.getLast?_eq_none_iff.mp hlast
      have hlen := scanTotals_length ((hb.scale (cw.map (fun c => c.fitness))).enum.filter
        (fun p => !(decide (p.1 ∈ scouting)))) 0
      rw [this] at hlen
      exact List.length_eq_zero.mp hlen.symm
    | some pair =>
      obtain ⟨j0, total⟩ := pair
      rw [hlast] at h
      simp only at h
      cases hfind : ((Hive.scanTotals 0 ((hb.scale (cw.map (fun c => c.fitness))).enum.filter
          (fun p => !(decide (p.1 ∈ scouting))))).find?
            (fun p => decide (r * total < p.2))) with
      | none => rw [hfind] at h; cases h
      | some q =>
        obtain ⟨i', t⟩ := q
        rw [hfind] at h
        simp only [Option.some.injEq] at h
        subst h
        have hmem := List.mem_of_find?_eq_some hfind
        have hfst : i' ∈ ((hb.scale (cw.map (fun c => c.fitness))).enum.filter
            (fun p => !(decide (p.1 ∈ scouting)))).map Prod.fst := by
          rw [← scanTotals_map_fst _ 0]
          exact List.mem_map.mpr ⟨(i', t), hmem, rfl⟩
        obtain ⟨p, hp, hpi⟩ := List.mem_map.mp hfst
        have := (fst_lt_length_of_mem_eligible hp).2.1
        rwa [hpi] at this
  · intro hb st st' es h0 h
    exact runTrace_scouting_empty h0 h

/-- Counterexample to C1 as frozen: with a single-candidate population
whose only index is in the scouting set, `choose` takes the all-scouting
fallback and returns index 0, which is a member of the scouting set. -/
theorem abc_c1_counterexample :
    Hive.choose hbU {0} [Candidate.new () (1 : ℚ)] 0 0 = some 0 ∧
    0 ∈ ({0} : Finset ℕ) := by
  constructor
  · simp [Hive.choose, Hive.scanTotals, hbU, proportionate, Candidate.new]
  · decide

/-- Witness for C1 at a concrete non-scouting choice and a one-step trace. -/
theorem abc_c1_witness :
    Hive.choose hbU ∅ [Candidate.new () (1 : ℚ)] 0 0 = some 0 ∧
    (0 : ℕ) ∉ (∅ : Finset ℕ) ∧
    Hive.runTrace hbU stU [(Task.Worker 0, 0, 0)] = some stU' ∧
    stU'.scouting = ∅ := by
  have hch : Hive.choose hbU ∅ [Candidate.new () (1 : ℚ)] 0 0 = some 0 := by
    norm_num [Hive.choose, Hive.scanTotals, hbU, proportionate, Candidate.new]
  have htr : Hive.runTrace hbU stU [(Task.Worker 0, 0, 0)] = some stU' := by decide
  refine ⟨hch, ?_, htr, ?_⟩
  · exact (abc_c1 (S := Unit)).1 hbU ∅ [Candidate.new () (1 : ℚ)] 0 0 0 [1]
      (by decide) ⟨0, by decide, by decide⟩ hch
  · exact (abc_c1 (S := Unit)).2 hbU stU stU' [(Task.Worker 0, 0, 0)] (by decide) htr

/-- Claim C10, amended: with at least one non-scouting index and
*non-negative* scaled weights on the non-scouting indices summing to 0
(the frozen claim omits non-negativity, but a mixed-sign weight vector
summing to 0 can still be selected from — see the counterexample), the
draw is `r * 0 = 0`, no cumulative sum strictly exceeds it, and `choose`
reaches `unreachable!()` (returns `none`); and whenever the eligible sum
is strictly positive and `0 ≤ r < 1`, `choose` always returns an index,
which is the sense in which the `unreachable!()` arm needs the
positive-sum precondition. -/
theorem abc_c10 {S : Type} (hb : HiveBuilder S) (scouting : Finset ℕ)
    (cw : List (Candidate S)) (r : ℚ) (u : ℕ) (ws : List ℚ)
    (hws : ws = hb.scale (cw.map (fun c => c.fitness))) :
    ((∃ j, j < ws.length ∧ j ∉ scouting) →
      (∀ j, j < ws.length → j ∉ scouting → 0 ≤ ws.getD j 0) →
      eligibleSum scouting ws = 0 →
      Hive.choose hb scouting cw r u = none) ∧
    (0 < eligibleSum scouting ws → 0 ≤ r → r < 1 →
      ∃ i, Hive.choose hb scouting cw r u = some i) := by
  subst hws
  constructor
  · intro hex hnn hsum
    obtain ⟨j, hjlen, hjsc⟩ := hex
    have hEne : (hb.scale (cw.map (fun c => c.fitness))).enum.filter
        (fun p => !(decide (p.1 ∈ scouting))) ≠ [] :=
      List.ne_nil_of_mem (mem_eligible_of_not_scouting hjlen hjsc)
    have hlast := scanTotals_getLast?_sum _ hEne
    simp only [Hive.choose, hlast]
    have hfind : (Hive.scanTotals 0 ((hb.scale (cw.map (fun c => c.fitness))).enum.filter
        (fun p => !(decide (p.1 ∈ scouting))))).find?
          (fun p => decide (r * ((((hb.scale (cw.map (fun c => c.fitness))).enum.filter
            (fun p => !(decide (p.1 ∈ scouting)))).map Prod.snd).sum) < p.2)) = none := by
      rw [List.find?_eq_none]
      intro x hx
      have hsum0 : ((((hb.scale (cw.map (fun c => c.fitness))).enum.filter
          (fun p => !(decide (p.1 ∈ scouting)))).map Prod.snd).sum) = 0 := hsum
      rw [hsum0, mul_zero]
      obtain ⟨k, hk⟩ := List.mem_iff_getElem?.mp hx
      have hklen : k < ((hb.scale (cw.map (fun c => c.fitness))).enum.filter
          (fun p => !(decide (p.1 ∈ scouting)))).length := by
        by_contra hge
        rw [List.getElem?_eq_none (by rw [scanTotals_length]; omega)] at hk
        cases hk
      rw [scanTotals_getElem? _ 0 k hklen] at hk
      simp only [Option.some.injEq] at hk
      have hx2 : x.2 = ((((hb.scale (cw.map (fun c => c.fitness))).enum.filter
          (fun p => !(decide (p.1 ∈ scouting)))).take (k + 1)).map Prod.snd).sum := by
        rw [← hk]
        simp
      have hsplit : ((((hb.scale (cw.map (fun c => c.fitness))).enum.filter
            (fun p => !(decide (p.1 ∈ scouting)))).take (k + 1)).map Prod.snd).sum +
          ((((hb.scale (cw.map (fun c => c.fitness))).enum.filter
            (fun p => !(decide (p.1 ∈ scouting)))).drop (k + 1)).map Prod.snd).sum =
          (((hb.scale (cw.map (fun c => c.fitness))).enum.filter
            (fun p => !(decide (p.1 ∈ scouting)))).map Prod.snd).sum := by
        rw [← List.sum_append, ← List.map_append, List.take_append_drop]
      have hdrop : 0 ≤ ((((hb.scale (cw.map (fun c => c.fitness))).enum.filter
          (fun p => !(decide (p.1 ∈ scouting)))).drop (k + 1)).map Prod.snd).sum := by
        apply List.sum_nonneg
        intro y hy
        obtain ⟨p, hp, hpy⟩ := List.mem_map.mp hy
        have hpE := List.mem_of_mem_drop hp
        obtain ⟨hlt, hsc, hval⟩ := fst_lt_length_of_mem_eligible hpE
        rw [← hpy, hval]
        exact hnn p.1 hlt hsc
      simp only [decide_eq_true_eq, not_lt]
      rw [hx2]
      have : x.2 + ((((hb.scale (cw.map (fun c => c.fitness))).enum.filter
          (fun p => !(decide (p.1 ∈ scouting)))).drop (k + 1)).map Prod.snd).sum = 0 := by
        rw [hx2, hsplit]
        exact hsum0
      linarith [hx2 ▸ this]
    rw [hfind]
  · intro hpos hr0 hr1
    set E := (hb.scale (cw.map (fun c => c.fitness))).enum.filter
        (fun p => !(decide (p.1 ∈ scouting))) with hE
    have hpos' : 0 < (E.map Prod.snd).sum := hpos
    have hEne : E ≠ [] := by
      intro hnil
      rw [hnil] at hpos'
      simp at hpos'
    have hlast := scanTotals_getLast?_sum E hEne
    have hcp : r * (E.map Prod.snd).sum < (E.map Prod.snd).sum := by
      calc r * (E.map Prod.snd).sum < 1 * (E.map Prod.snd).sum :=
            mul_lt_mul_of_pos_right hr1 hpos'
        _ = (E.map Prod.snd).sum := one_mul _
    have hmemlast := mem_of_getLast?_eq_some hlast
    have hsome : ((Hive.scanTotals 0 E).find?
        (fun p => decide (r * (E.map Prod.snd).sum < p.2))).isSome = true :=
      List.find?_isSome.mpr ⟨_, hmemlast, decide_eq_true hcp⟩
    obtain ⟨a, hfind⟩ := Option.isSome_iff_exists.mp hsome
    obtain ⟨i, t⟩ := a
    refine ⟨i, ?_⟩
    simp only [Hive.choose, ← hE, hlast, hfind]

/-- Counterexample to C10 as frozen: scaled weights `[1, -1]` (scouting
set empty, both indices eligible) sum to 0, yet `choose` does not panic —
the first cumulative sum `1` already exceeds the draw `r * 0 = 0`, so index
0 is returned. -/
theorem abc_c10_counterexample :
    eligibleSum ∅ (hbU.scale ([Candidate.new () (1 : ℚ),
        Candidate.new () (-1 : ℚ)].map (fun c => c.fitness))) = 0 ∧
    (0 : ℕ) < (hbU.scale ([Candidate.new () (1 : ℚ),
        Candidate.new () (-1 : ℚ)].map (fun c => c.fitness))).length ∧
    (0 : ℕ) ∉ (∅ : Finset ℕ) ∧
    Hive.choose hbU ∅ [Candidate.new () (1 : ℚ), Candidate.new () (-1 : ℚ)]
        (1 / 2) 0 = some 0 := by
  refine ⟨?_, ?_, by decide, ?_⟩
  · norm_num [eligibleSum, hbU, proportionate, Candidate.new]
  · norm_num [hbU, proportionate, Candidate.new]
  · norm_num [Hive.choose, Hive.scanTotals, hbU, proportionate, Candidate.new]

/-- Witness for C10: the all-zero weight vector panics; a positive one
does not. -/
theorem abc_c10_witness :
    eligibleSum ∅ [(0 : ℚ)] = 0 ∧
    Hive.choose hbU ∅ [Candidate.new () (0 : ℚ)] 0 0 = none ∧
    0 < eligibleSum ∅ [(1 : ℚ)] ∧
    (∃ i, Hive.choose hbU ∅ [Candidate.new () (1 : ℚ)] 0 0 = some i) := by
  have h0 := abc_c10 hbU ∅ [Candidate.new () (0 : ℚ)] 0 0 [(0 : ℚ)]
    (by simp [hbU, proportionate, Candidate.new])
  have h1 := abc_c10 hbU ∅ [Candidate.new () (1 : ℚ)] 0 0 [(1 : ℚ)]
    (by simp [hbU, proportionate, Candidate.new])
  refine ⟨?_, ?_, ?_, ?_⟩
  · norm_num [eligibleSum]
  · refine h0.1 ⟨0, by norm_num, by decide⟩ ?_ (by norm_num [eligibleSum])
    intro j hj hsc
    simp only [List.length_singleton] at hj
    interval_cases j
    norm_num
  · norm_num [eligibleSum]
  · exact h1.2 (by norm_num [eligibleSum]) le_rfl (by norm_num)

/-- Claim C6: `choose` is roulette selection restricted to non-scouting
indices.  With a strictly positive eligible total and a draw `r ∈ [0, 1)`,
the choice point `r * total` lies in `[0, total)` and `choose` returns the
least non-scouting index whose cumulative eligible weight strictly exceeds
the choice point; if every index of the population is scouting, it returns
a uniformly random index over the whole population (`u % len`). -/
theorem abc_c6 {S : Type} (hb : HiveBuilder S) (scouting : Finset ℕ)
    (cw : List (Candidate S)) (r : ℚ) (u : ℕ) (ws : List ℚ)
    (hws : ws = hb.scale (cw.map (fun c => c.fitness))) :
    (0 < eligibleSum scouting ws → 0 ≤ r → r < 1 →
      0 ≤ r * eligibleSum scouting ws ∧
      r * eligibleSum scouting ws < eligibleSum scouting ws ∧
      ∃ i, Hive.choose hb scouting cw r u = some i ∧
        i < ws.length ∧ i ∉ scouting ∧
        r * eligibleSum scouting ws < specCumSum scouting ws i ∧
        ∀ j, j < i → j ∉ scouting →
          specCumSum scouting ws j ≤ r * eligibleSum scouting ws) ∧
    ((∀ j, j < ws.length → j ∈ scouting) → 0 < ws.length →
      Hive.choose hb scouting cw r u = some (u % ws.length) ∧
      u % ws.length < ws.length) := by
  subst hws
  set E := (hb.scale (cw.map (fun c => c.fitness))).enum.filter
      (fun p => !(decide (p.1 ∈ scouting))) with hE
  have htot : eligibleSum scouting (hb.scale (cw.map (fun c => c.fitness))) =
      (E.map Prod.snd).sum := rfl
  constructor
  · intro hpos hr0 hr1
    have hpos' : 0 < (E.map Prod.snd).sum := htot ▸ hpos
    have hEne : E ≠ [] := by
      intro hnil
      rw [hnil] at hpos'
      simp at hpos'
    have hlast := scanTotals_getLast?_sum E hEne
    have hcp : r * (E.map Prod.snd).sum < (E.map Prod.snd).sum := by
      calc r * (E.map Prod.snd).sum < 1 * (E.map Prod.snd).sum :=
            mul_lt_mul_of_pos_right hr1 hpos'
        _ = (E.map Prod.snd).sum := one_mul _
    have hsome : ((Hive.scanTotals 0 E).find?
        (fun p => decide (r * (E.map Prod.snd).sum < p.2))).isSome = true :=
      List.find?_isSome.mpr ⟨_, mem_of_getLast?_eq_some hlast, decide_eq_true hcp⟩
    obtain ⟨a, hfind⟩ := Option.isSome_iff_exists.mp hsome
    obtain ⟨k, hk, hget, hpa, hfirst⟩ := find?_eq_some_first _ _ _ hfind
    have hklen : k < E.length := by
      rw [scanTotals_length] at hk
      exact hk
    have ha : some a = some ((E[k]).1, 0 + ((E.take (k + 1)).map Prod.snd).sum) := by
      rw [← hget, ← List.getElem?_eq_getElem hk, scanTotals_getElem? E 0 k hklen]
    simp only [Option.some.injEq] at ha
    have hmemEk : E[k] ∈ E := List.getElem_mem hklen
    obtain ⟨hilen, hisc, hival⟩ := fst_lt_length_of_mem_eligible hmemEk
    have hcum : specCumSum scouting (hb.scale (cw.map (fun c => c.fitness))) (E[k]).1 =
        ((E.take (k + 1)).map Prod.snd).sum :=
      specCumSum_eq_take scouting (hb.scale (cw.map (fun c => c.fitness))) k
        hklen (E[k]).1 rfl
    refine ⟨mul_nonneg hr0 (le_of_lt hpos), by rw [htot]; exact hcp,
      (E[k]).1, ?_, hilen, hisc, ?_, ?_⟩
    · have hch : Hive.choose hb scouting cw r u = some a.1 := by
        simp only [Hive.choose, ← hE, hlast, hfind]
      rw [hch, ha]
    · rw [htot, hcum]
      have hlt := of_decide_eq_true hpa
      rw [ha] at hlt
      simpa using hlt
    · intro j hj hjsc
      have hjlen : j < (hb.scale (cw.map (fun c => c.fitness))).length :=
        lt_trans hj hilen
      have hjE : (j, (hb.scale (cw.map (fun c => c.fitness)))[j]) ∈ E :=
        mem_eligible_of_not_scouting hjlen hjsc
      obtain ⟨k2, hk2, hgetk2⟩ := List.mem_iff_getElem.mp hjE
      have hj1 : (E[k2]).1 = j := by rw [hgetk2]
      have hpwE : E.Pairwise (fun a b : ℕ × ℚ => a.1 < b.1) := by
        rw [hE]
        exact eligible_pairwise scouting (hb.scale (cw.map (fun c => c.fitness)))
      have hpg := List.pairwise_iff_getElem.mp hpwE
      have hk2k : k2 < k := by
        rcases Nat.lt_trichotomy k2 k with hcase | hcase | hcase
        · exact hcase
        · exfalso
          subst hcase
          rw [hj1] at hj
          exact lt_irrefl j hj
        · exfalso
          have h5 := hpg k k2 hklen hk2 hcase
          omega
      have hkst : k2 < (Hive.scanTotals 0 E).length := by
        rw [scanTotals_length]
        omega
      have hbmem : (Hive.scanTotals 0 E)[k2] ∈ (Hive.scanTotals 0 E).take k :=
        getElem_mem_take hk2k hkst
      have hbval : some ((Hive.scanTotals 0 E)[k2]) =
          some ((E[k2]).1, 0 + ((E.take (k2 + 1)).map Prod.snd).sum) := by
        rw [← List.getElem?_eq_getElem hkst, scanTotals_getElem? E 0 k2 hk2]
      simp only [Option.some.injEq] at hbval
      have hfb := hfirst _ hbmem
      rw [hbval] at hfb
      simp only [decide_eq_false_iff_not, not_lt] at hfb
      have hcumj : specCumSum scouting (hb.scale (cw.map (fun c => c.fitness))) j =
          ((E.take (k2 + 1)).map Prod.snd).sum :=
        specCumSum_eq_take scouting (hb.scale (cw.map (fun c => c.fitness))) k2
          hk2 j hj1
      rw [htot, hcumj]
      simpa using hfb
  · intro hall hlen
    have hEnil : E = [] := by
      rw [hE, List.filter_eq_nil_iff]
      intro p hp
      obtain ⟨ip, xp⟩ := p
      have hmem := List.mk_mem_enum_iff_getElem?.mp hp
      have hip : ip < (hb.scale (cw.map (fun c => c.fitness))).length :=
        (List.getElem?_eq_some.mp hmem).1
      simp [hall ip hip]
    have hlen0 : ¬ ((hb.scale (cw.map (fun c => c.fitness))).length = 0) := by omega
    constructor
    · simp only [Hive.choose, ← hE, hEnil, Hive.scanTotals, List.getLast?_nil,
        if_neg hlen0]
    · exact Nat.mod_lt _ hlen


/-- Witness for C6: two candidates with weights `[1, 3]`, draw `1/2`
(choice point 2), so index 1 (cumulative sum 4) is selected; and the
all-scouting fallback on a singleton population. -/
theorem abc_c6_witness :
    (0 : ℚ) < eligibleSum ∅ [(1 : ℚ), 3] ∧
    (∃ i, Hive.choose hbU ∅ [Candidate.new () (1 : ℚ), Candidate.new () (3 : ℚ)]
        (1 / 2) 0 = some i ∧
      i < ([(1 : ℚ), 3] : List ℚ).length ∧ i ∉ (∅ : Finset ℕ) ∧
      (1 / 2 : ℚ) * eligibleSum ∅ [(1 : ℚ), 3] < specCumSum ∅ [(1 : ℚ), 3] i ∧
      ∀ j, j < i → j ∉ (∅ : Finset ℕ) →
        specCumSum ∅ [(1 : ℚ), 3] j ≤ (1 / 2 : ℚ) * eligibleSum ∅ [(1 : ℚ), 3]) ∧
    Hive.choose hbU {0} [Candidate.new () (1 : ℚ)] 5 7 = some (7 % 1) := by
  have h := abc_c6 hbU ∅ [Candidate.new () (1 : ℚ), Candidate.new () (3 : ℚ)]
    (1 / 2) 0 [(1 : ℚ), 3] (by simp [hbU, proportionate, Candidate.new])
  have h2 := abc_c6 hbU {0} [Candidate.new () (1 : ℚ)] 5 7 [(1 : ℚ)]
    (by simp [hbU, proportionate, Candidate.new])
  have hmain := h.1 (by norm_num [eligibleSum]) (by norm_num) (by norm_num)
  refine ⟨by norm_num [eligibleSum], hmain.2.2, ?_⟩
  have hfb := h2.2 ?_ (by norm_num)
  · exact hfb.1
  · intro j hj
    simp only [List.length_singleton] at hj
    interval_cases j
    · decide

/-! ## Rank-scaling lemmas (claim C8)

`power_rank` sorts the enumerated fitness pairs with a stable sort.  The
key invariant is that the sorted list is *strictly* sorted by the
lexicographic order `lexLT` (fitness, then original index), which pins
down every position uniquely. -/

lemma lexLT_irrefl (a : ℕ × ℚ) : ¬ lexLT a a := by
  unfold lexLT
  rintro (h | ⟨_, h⟩) <;> exact lt_irrefl _ h

lemma lexLT_asymm {a b : ℕ × ℚ} (h : lexLT a b) : ¬ lexLT b a := by
  unfold lexLT at h ⊢
  rcases h with h | ⟨he, hi⟩ <;> rintro (h' | ⟨he', hi'⟩)
  · exact absurd h' (not_lt.mpr (le_of_lt h))
  · rw [he'] at h
    exact lt_irrefl _ h
  · rw [he] at h'
    exact lt_irrefl _ h'
  · omega

lemma pairwise_lexLT_orderedInsert (x : ℕ × ℚ) :
    ∀ l : List (ℕ × ℚ), l.Sorted (fun a b => a.2 ≤ b.2) → l.Pairwise lexLT →
      (∀ y ∈ l, x.2 = y.2 → x.1 < y.1) →
      (List.orderedInsert (fun a b => a.2 ≤ b.2) x l).Pairwise lexLT := by
  intro l
  induction l with
  | nil =>
    intro _ _ _
    simp
  | cons y l ih =>
    intro hsort hpw hties
    by_cases hxy : x.2 ≤ y.2
    · rw [List.orderedInsert, if_pos hxy]
      refine List.Pairwise.cons ?_ hpw
      intro z hz
      have hxz : x.2 ≤ z.2 := by
        rcases List.mem_cons.mp hz with rfl | hzl
        · exact hxy
        · exact le_trans hxy (List.rel_of_sorted_cons hsort z hzl)
      rcases lt_or_eq_of_le hxz with hlt | heq
      · exact Or.inl hlt
      · exact Or.inr ⟨heq, hties z hz heq⟩
    · rw [List.orderedInsert, if_neg hxy]
      have hyx : y.2 < x.2 := lt_of_not_le hxy
      refine List.Pairwise.cons ?_
        (ih hsort.of_cons hpw.of_cons (fun z hz => hties z (List.mem_cons_of_mem y hz)))
      intro z hz
      rcases (List.mem_orderedInsert _).mp hz with rfl | hzl
      · exact Or.inl hyx
      · exact (List.pairwise_cons.mp hpw).1 z hzl

lemma pairwise_lexLT_insertionSort :
    ∀ l : List (ℕ × ℚ), l.Pairwise (fun a b => a.2 = b.2 → a.1 < b.1) →
      (List.insertionSort (fun a b => a.2 ≤ b.2) l).Pairwise lexLT := by
  intro l
  induction l with
  | nil =>
    intro _
    simp
  | cons x l ih =>
    intro hpw
    rw [List.insertionSort]
    refine pairwise_lexLT_orderedInsert x _
      (List.sorted_insertionSort _ l) (ih hpw.of_cons) ?_
    intro y hy heq
    exact (List.pairwise_cons.mp hpw).1 y ((List.mem_insertionSort _).mp hy) heq

lemma count_lexLT_of_pairwise {s : List (ℕ × ℚ)} (hs : s.Pairwise lexLT)
    (p : ℕ) (hp : p < s.length) (e : ℕ × ℚ) (he : s[p] = e) :
    (s.filter (fun a => decide (lexLT a e))).length = p := by
  have hpg := List.pairwise_iff_getElem.mp hs
  have hsplit : s = s.take p ++ s[p] :: s.drop (p + 1) := by
    conv_lhs => rw [← List.take_append_drop p s]
    rw [List.drop_eq_getElem_cons hp]
  conv_lhs => rw [hsplit]
  rw [List.filter_append, List.filter_cons]
  have hhead : decide (lexLT s[p] e) = false := by
    rw [he]
    exact decide_eq_false (lexLT_irrefl e)
  rw [hhead]
  simp only [Bool.false_eq_true, if_false]
  have h1 : (s.take p).filter (fun a => decide (lexLT a e)) = s.take p := by
    rw [List.filter_eq_self]
    intro b hb
    obtain ⟨j, hj, hbj⟩ := List.mem_iff_getElem.mp hb
    have hjp : j < p := by
      have := hj
      simp only [List.length_take] at this
      omega
    have hjl : j < s.length := by omega
    have hbe : b = s[j] := by
      rw [← hbj]
      exact List.getElem_take s
    rw [hbe, ← he]
    exact decide_eq_true (hpg j p hjl hp hjp)
  have h2 : (s.drop (p + 1)).filter (fun a => decide (lexLT a e)) = [] := by
    rw [List.filter_eq_nil_iff]
    intro b hb
    obtain ⟨j, hj, hbj⟩ := List.mem_iff_getElem.mp hb
    have hjl : (p + 1) + j < s.length := by
      have := hj
      simp only [List.length_drop] at this
      omega
    have hbe : b = s[(p + 1) + j] := by
      rw [← hbj]
      exact List.getElem_drop s
    have hlt := hpg p ((p + 1) + j) hp hjl (by omega)
    rw [he] at hlt
    rw [hbe]
    simp only [decide_eq_true_eq]
    exact lexLT_asymm hlt
  rw [h1, h2, List.append_nil, List.length_take]
  omega

lemma filter_length_pointwise {α β : Type} (p : α → Bool) (q : β → Bool) :
    ∀ (l₁ : List α) (l₂ : List β) (hlen : l₁.length = l₂.length),
      (∀ j (hj : j < l₁.length), p (l₁[j]) = q (l₂[j])) →
      (l₁.filter p).length = (l₂.filter q).length := by
  intro l₁
  induction l₁ with
  | nil =>
    intro l₂ hlen _
    rw [List.length_nil] at hlen
    rw [List.length_eq_zero.mp hlen.symm]
    rfl
  | cons x l ih =>
    intro l₂ hlen hpt
    cases l₂ with
    | nil => simp at hlen
    | cons y l₂' =>
      have h0 := hpt 0 (by simp)
      simp only [List.getElem_cons_zero] at h0
      have hrec := ih l₂' (by simpa using hlen) (fun j hj => by
        have := hpt (j + 1) (by simpa using Nat.succ_lt_succ hj)
        simpa using this)
      rw [List.filter_cons, List.filter_cons, h0]
      cases hq : q y <;> simp [hq, hrec]

lemma foldl_set_length {α : Type} (f : α → ℕ) (v : α → ℚ) :
    ∀ (entries : List α) (init : List ℚ),
      (entries.foldl (fun acc pe => acc.set (f pe) (v pe)) init).length
        = init.length := by
  intro entries
  induction entries with
  | nil => intro init; rfl
  | cons e rest ih =>
    intro init
    rw [List.foldl_cons, ih, List.length_set]

lemma foldl_set_getD_of_not_mem {α : Type} (f : α → ℕ) (v : α → ℚ) :
    ∀ (entries : List α) (init : List ℚ) (i : ℕ),
      (∀ pe ∈ entries, f pe ≠ i) →
      (entries.foldl (fun acc pe => acc.set (f pe) (v pe)) init).getD i 0
        = init.getD i 0 := by
  intro entries
  induction entries with
  | nil => intro init i _; rfl
  | cons e rest ih =>
    intro init i hne
    rw [List.foldl_cons, ih _ i (fun pe hpe => hne pe (List.mem_cons_of_mem e hpe))]
    have hei : f e ≠ i := hne e (List.mem_cons_self e rest)
    rw [List.getD_eq_getElem?_getD, List.getD_eq_getElem?_getD,
      List.getElem?_set, if_neg hei]

lemma foldl_set_getD_of_mem {α : Type} (f : α → ℕ) (v : α → ℚ) :
    ∀ (entries : List α) (init : List ℚ) (e : α),
      e ∈ entries → (entries.map f).Nodup → f e < init.length →
      (entries.foldl (fun acc pe => acc.set (f pe) (v pe)) init).getD (f e) 0
        = v e := by
  intro entries
  induction entries with
  | nil =>
    intro init e he _ _
    cases he
  | cons e0 rest ih =>
    intro init e he hnd hlt
    rw [List.map_cons, List.nodup_cons] at hnd
    rcases List.mem_cons.mp he with rfl | hmem
    · rw [List.foldl_cons,
        foldl_set_getD_of_not_mem f v rest _ (f e) (fun pe hpe hfe => hnd.1 (hfe ▸ List.mem_map_of_mem f hpe))]
      rw [List.getD_eq_getElem?_getD, List.getElem?_set, if_pos rfl, if_pos hlt]
      rfl
    · rw [List.foldl_cons, ih _ e hmem hnd.2 (by rw [List.length_set]; exact hlt)]

lemma map_snd_fst_enum (l : List (ℕ × ℚ)) :
    l.enum.map (fun pe => pe.2.1) = l.map Prod.fst := by
  have : (fun pe : ℕ × (ℕ × ℚ) => pe.2.1) = Prod.fst ∘ Prod.snd := rfl
  rw [this, ← List.map_map, List.enum_map_snd]

/-- Claim C8: `rank()` and `power_rank(k)` preserve length and order, and
position `i` of the output holds `rank_i ^ k`, where `rank_i` is the
1-based ascending rank of `fitness_i` (rank 1 for the lowest fitness,
ties broken stably by original position — `specRank`); `rank()` is
`power_rank` at `k = 1`.  Over `ℚ` every pair of fitnesses is comparable,
so the claim's non-NaN proviso is automatic. -/
theorem abc_c8 (k : ℕ) (fitnesses : List ℚ) :
    (power_rank k fitnesses).length = fitnesses.length ∧
    (∀ i, i < fitnesses.length →
      (power_rank k fitnesses).getD i 0 = ((specRank fitnesses i : ℚ)) ^ k) ∧
    rank = power_rank 1 := by
  refine ⟨?_, ?_, rfl⟩
  · simp only [power_rank]
    rw [foldl_set_length (fun pe : ℕ × (ℕ × ℚ) => pe.2.1)
        (fun pe : ℕ × (ℕ × ℚ) => ((pe.1 + 1 : ℕ) : ℚ) ^ k),
      List.length_replicate, List.enum_length]
  · intro i hi
    simp only [power_rank]
    have hpw_enum : fitnesses.enum.Pairwise
        (fun a b : ℕ × ℚ => a.2 = b.2 → a.1 < b.1) :=
      List.Pairwise.imp (fun {a b} (h : a.1 < b.1) => fun _ : a.2 = b.2 => h)
        (pairwise_fst_lt_enum fitnesses)
    have hsorted := pairwise_lexLT_insertionSort fitnesses.enum hpw_enum
    have hperm := List.perm_insertionSort (fun a b : ℕ × ℚ => a.2 ≤ b.2) fitnesses.enum
    have hmemi : ((i, fitnesses[i]) : ℕ × ℚ) ∈
        List.insertionSort (fun a b : ℕ × ℚ => a.2 ≤ b.2) fitnesses.enum := by
      rw [hperm.mem_iff]
      exact List.mk_mem_enum_iff_getElem?.mpr (List.getElem?_eq_getElem hi)
    obtain ⟨p, hp, hpe⟩ := List.mem_iff_getElem.mp hmemi
    have hcount := count_lexLT_of_pairwise hsorted p hp (i, fitnesses[i]) hpe
    have htrans : ((List.insertionSort (fun a b : ℕ × ℚ => a.2 ≤ b.2)
          fitnesses.enum).filter
            (fun a => decide (lexLT a (i, fitnesses[i])))).length =
        ((fitnesses.enum).filter
          (fun a => decide (lexLT a (i, fitnesses[i])))).length :=
      (hperm.filter _).length_eq
    have hrange : ((fitnesses.enum).filter
          (fun a => decide (lexLT a (i, fitnesses[i])))).length =
        ((List.range fitnesses.length).filter
          (fun j => decide (fitnesses.getD j 0 < fitnesses.getD i 0) ||
            (decide (fitnesses.getD j 0 = fitnesses.getD i 0) &&
              decide (j < i)))).length := by
      refine filter_length_pointwise _ _ _ _ (by simp) ?_
      intro j hj
      have hj' : j < fitnesses.length := by simpa using hj
      rw [List.getElem_enum, List.getElem_range]
      show decide (lexLT (j, fitnesses[j]) (i, fitnesses[i])) = _
      rw [List.getD_eq_getElem fitnesses 0 hj', List.getD_eq_getElem fitnesses 0 hi]
      simp [lexLT]
    have hp1 : p + 1 = specRank fitnesses i := by
      unfold specRank
      omega
    have hentry : ((p, ((i, fitnesses[i]) : ℕ × ℚ)) :
        ℕ × (ℕ × ℚ)) ∈ (List.insertionSort
          (fun a b : ℕ × ℚ => a.2 ≤ b.2) fitnesses.enum).enum := by
      refine List.mk_mem_enum_iff_getElem?.mpr ?_
      rw [List.getElem?_eq_getElem hp, hpe]
    have hnd : ((List.insertionSort (fun a b : ℕ × ℚ => a.2 ≤ b.2)
        fitnesses.enum).enum.map (fun pe => pe.2.1)).Nodup := by
      rw [map_snd_fst_enum]
      have hpermfst := hperm.map Prod.fst
      rw [List.enum_map_fst] at hpermfst
      exact hpermfst.nodup_iff.mpr (List.nodup_range _)
    have hbound : (i : ℕ) < (List.replicate fitnesses.enum.length (0 : ℚ)).length := by
      rw [List.length_replicate, List.enum_length]
      exact hi
    have := foldl_set_getD_of_mem (fun pe : ℕ × (ℕ × ℚ) => pe.2.1)
      (fun pe => ((pe.1 + 1 : ℕ) : ℚ) ^ k) _ _ _ hentry hnd hbound
    rw [this]
    rw [← hp1]

/-- Witness for C8: `rank` on `[3, 1, 3, 0]` puts rank 3 at position 0
(stable tie-break before position 2), and `power_rank 2` squares ranks. -/
theorem abc_c8_witness :
    (0 : ℕ) < ([(3 : ℚ), 1, 3, 0] : List ℚ).length ∧
    (power_rank 2 [(3 : ℚ), 1, 3, 0]).getD 0 0 =
      ((specRank [(3 : ℚ), 1, 3, 0] 0 : ℚ)) ^ 2 := by
  exact ⟨by norm_num, (abc_c8 2 [(3 : ℚ), 1, 3, 0]).2.1 0 (by norm_num)⟩

end Abc
